import Mathlib

/-!
Verification of the ledger-validation core in `src/blockchain.py`
(simple_blockchain): a shallow embedding of the transaction / block /
chain-index data model and its operations, with theorems checking the
natural-language specification against the code.

Modelling conventions:
* SHA-256 based identities (`Transaction.getHash`, `Block.getHash`) are
  opaque: operations are parameterised by hash functions
  `Htx : Transaction → Nat` and `H : Block → Nat`.
* Python dictionaries are association lists in insertion order;
  `d[k] = v` updates in place or appends, `del d[k]` removes the entry.
* Fallible Python code (KeyError, TypeError, constraint-script
  exceptions) is embedded in `Except Unit`.
* Integer amounts are `Int`, 256-bit hash values are `Nat`,
  cumulative work (a Python float ratio of two ints) is `ℚ`.
-/

/-- A Python value handed to / returned from a constraint script.
Only booleans and ints are needed for the properties at issue. -/
inductive PyVal where
  | pyBool : Bool → PyVal
  | pyInt : Int → PyVal

/-- Python truthiness, as used by `if not constraint(...)` on line 137. -/
def PyVal.truthy : PyVal → Bool
  | .pyBool b => b
  | .pyInt n => decide (n ≠ 0)

/-- `Output` (src/blockchain.py lines 57-76): a constraint script
(which may raise, modelled as `Except`) and an amount. The
constructor's `constraint or (lambda x: True)` default is resolved at
construction time (see `defaultConstraint`). -/
structure Output where
  constraint : List PyVal → Except Unit PyVal
  amount : Int

/-- The resolved constraint for `Output(constraint=None)`: `lambda x: True`. -/
def defaultConstraint : List PyVal → Except Unit PyVal := fun _ => .ok (.pyBool true)

/-- `Input` (src/blockchain.py lines 78-88). -/
structure Input where
  txHash : Nat
  txIdx : Int
  satisfier : List PyVal

/-- `Transaction` (src/blockchain.py lines 90-101): `inputs=None`
denotes a mint; `outputs` is the ordered output list. -/
structure Transaction where
  inputs : Option (List Input)
  outputs : List Output
  data : Option (List Nat)

/-- UTXO dictionary `{ (txHash, outputIndex) : Output }` in insertion order. -/
abbrev Utxo : Type := List ((Nat × Int) × Output)

/-- Python `dict` lookup `d.get(k)` over an insertion-ordered assoc list. -/
def dLookup {κ α : Type} [DecidableEq κ] : List (κ × α) → κ → Option α
  | [], _ => none
  | (k', v) :: rest, k => if k' = k then some v else dLookup rest k

/-- Python `k in d`. -/
def dMem {κ α : Type} [DecidableEq κ] (d : List (κ × α)) (k : κ) : Bool :=
  (dLookup d k).isSome

/-- Python `d[k] = v`: replace in place if present, else append. -/
def dInsert {κ α : Type} [DecidableEq κ] : List (κ × α) → κ → α → List (κ × α)
  | [], k, v => [(k, v)]
  | (k', v') :: rest, k, v =>
      if k' = k then (k, v) :: rest else (k', v') :: dInsert rest k v

/-- Python `del d[k]` (call sites guard with `k in d` first). -/
def dErase {κ α : Type} [DecidableEq κ] : List (κ × α) → κ → List (κ × α)
  | [], _ => []
  | (k', v') :: rest, k => if k' = k then rest else (k', v') :: dErase rest k

/-- Python `sum(output.amount for output in outputs)` (left fold from 0). -/
def sumAmounts (l : List Output) : Int := l.foldl (fun acc o => acc + o.amount) 0

/-- Python truthiness of the optional `inputs` list (`if self.inputs:`):
`None` and `[]` are falsy. -/
def pyTruthy {α : Type} : Option (List α) → Bool
  | none => false
  | some l => !l.isEmpty

/-- Python list indexing `l[n]` (negative indices count from the end,
out-of-range raises, modelled as `none`). -/
def pyListGet {α : Type} (l : List α) (n : Int) : Option α :=
  if 0 ≤ n then l.get? n.toNat
  else if 0 ≤ n + (l.length : Int) then l.get? (n + (l.length : Int)).toNat
  else none

/-- `Transaction.getOutput` (src/blockchain.py lines 112-114):
`self.outputs[n] if n < len(self.outputs) else None`.  The guarded
index can still raise (IndexError) for very negative `n`. -/
def Transaction.getOutput (t : Transaction) (n : Int) : Except Unit (Option Output) :=
  if n < (t.outputs.length : Int) then
    match pyListGet t.outputs n with
    | some o => .ok (some o)
    | none => .error ()
  else .ok none

/-- `Transaction.validateMint` (src/blockchain.py lines 116-123):
`if self.inputs: return False` then
`return sum(output.amount for output in self.outputs) <= maxCoinsToCreate`. -/
def Transaction.validateMint (t : Transaction) (maxCoinsToCreate : Int) : Bool :=
  if pyTruthy t.inputs then false
  else decide (sumAmounts t.outputs ≤ maxCoinsToCreate)

/-- Line 131: `sum(unspentOutputDict[(input.txHash, input.txIdx)].amount
for input in self.inputs)` — a missing key raises KeyError. -/
def sumInputAmounts (u : Utxo) (acc : Int) : List Input → Except Unit Int
  | [] => .ok acc
  | i :: rest =>
    match dLookup u (i.txHash, i.txIdx) with
    | none => .error ()
    | some o => sumInputAmounts u (acc + o.amount) rest

/-- Lines 136-138: the constraint loop.  A missing key raises; a raising
constraint propagates (there is no try/except in the source); the
result is tested for truthiness (`if not ...`). -/
def checkConstraints (u : Utxo) : List Input → Except Unit Bool
  | [] => .ok true
  | i :: rest =>
    match dLookup u (i.txHash, i.txIdx) with
    | none => .error ()
    | some o =>
      match o.constraint i.satisfier with
      | .error e => .error e
      | .ok v => if v.truthy = false then .ok false else checkConstraints u rest

/-- `Transaction.validate` (src/blockchain.py lines 125-139).  Iterating
`self.inputs` when it is `None` raises TypeError (modelled `.error`). -/
def Transaction.validate (t : Transaction) (unspentOutputDict : Utxo) : Except Unit Bool :=
  match t.inputs with
  | none => .error ()
  | some inps =>
    match sumInputAmounts unspentOutputDict 0 inps with
    | .error e => .error e
    | .ok total_input =>
      if total_input < sumAmounts t.outputs then .ok false
      else checkConstraints unspentOutputDict inps

/-- `Block` (src/blockchain.py lines 203-214): header fields plus the
transaction list held by `BlockContents`. -/
structure Block where
  priorHash : Nat
  target : Nat
  nonce : Nat
  transactions : List Transaction

/-- Lines 282-283: `for idx, output in enumerate(tx.outputs):
new_utxo[(tx.getHash(), idx)] = output`. -/
def addOutputs (txh : Nat) : Utxo → Nat → List Output → Utxo
  | nu, _, [] => nu
  | nu, idx, o :: rest => addOutputs txh (dInsert nu (txh, (idx : Int)) o) (idx + 1) rest

/-- Lines 285-290: delete each spent input from the accumulating set;
a reference absent from the set makes the whole block invalid (`none`). -/
def removeInputs : Utxo → List Input → Option Utxo
  | nu, [] => some nu
  | nu, i :: rest =>
    if dMem nu (i.txHash, i.txIdx) then removeInputs (dErase nu (i.txHash, i.txIdx)) rest
    else none

/-- Lines 276-290: the loop over `self.transactions[1:]`. -/
def processTxs (Htx : Transaction → Nat) : Utxo → List Transaction → Except Unit (Option Utxo)
  | nu, [] => .ok (some nu)
  | nu, tx :: rest =>
    match Transaction.validate tx nu with
    | .error e => .error e
    | .ok false => .ok none
    | .ok true =>
      match tx.inputs with
      | none => .error ()
      | some inps =>
        match removeInputs (addOutputs (Htx tx) nu 0 tx.outputs) inps with
        | none => .ok none
        | some nu2 => processTxs Htx nu2 rest

/-- `Block.validate` (src/blockchain.py lines 251-293), parameterised by
the transaction and block hash functions. -/
def Block.validate (Htx : Transaction → Nat) (H : Block → Nat) (b : Block)
    (unspentOutputs : Utxo) (maxMint : Int) : Except Unit (Option Utxo) :=
  if b.target ≤ H b then .ok none
  else
    match b.transactions with
    | [] => .ok (some unspentOutputs)
    | coinbase :: rest =>
      if coinbase.validateMint maxMint = false then .ok none
      else processTxs Htx unspentOutputs rest

/-- Concrete mint transaction creating 100 coins (claim C1 failing input). -/
def c1MintTx : Transaction :=
  { inputs := none, outputs := [{ constraint := defaultConstraint, amount := 100 }], data := none }

/-- Concrete block containing only the coinbase `c1MintTx` (claim C1). -/
def c1Block : Block :=
  { priorHash := 0, target := 1, nonce := 0, transactions := [c1MintTx] }

/-- An output whose constraint script raises on any evidence (claim C2). -/
def throwingOutput : Output := { constraint := fun _ => .error (), amount := 10 }

/-- An output whose constraint script returns the truthy int 1 (not `True`). -/
def truthyOutput : Output := { constraint := fun _ => .ok (.pyInt 1), amount := 10 }

/-- UTXO set holding `throwingOutput` at reference (1, 0). -/
def c2UtxoThrow : Utxo := [((1, 0), throwingOutput)]

/-- UTXO set holding `truthyOutput` at reference (1, 0). -/
def c2UtxoTruthy : Utxo := [((1, 0), truthyOutput)]

/-- A spend of reference (1, 0) with empty evidence and no outputs. -/
def c2SpendTx : Transaction :=
  { inputs := some [{ txHash := 1, txIdx := 0, satisfier := [] }], outputs := [], data := none }

/-- A spend of reference (2, 0), absent from `c2UtxoThrow`. -/
def c2MissingTx : Transaction :=
  { inputs := some [{ txHash := 2, txIdx := 0, satisfier := [] }], outputs := [], data := none }

/-- `int.to_bytes(h, 32, 'big')`: a hash as a 32-byte big-endian buffer. -/
def toBytes32 (n : Nat) : List Nat := (List.range 32).map (fun i => n / 256 ^ (31 - i) % 256)

/-- `int.from_bytes(buf, 'big')`. -/
def fromBytesBE (l : List Nat) : Nat := l.foldl (fun a b => a * 256 + b) 0

/-- `bytes(32)`: the all-zero 32-byte padding buffer (line 173). -/
def zero32 : List Nat := List.replicate 32 0

/-- Line 174: `[sha256(nodes[i] + nodes[i+1]).digest() for i in range(0, len(nodes), 2)]`
on the (always even, post-padding) node list, for an opaque sha256. -/
def pairHash (sha : List Nat → List Nat) : List (List Nat) → List (List Nat)
  | a :: b :: rest => sha (a ++ b) :: pairHash sha rest
  | _ => []

/-- Lines 172-173: append one zero buffer when the level is odd. -/
def padEven (l : List (List Nat)) : List (List Nat) :=
  if l.length % 2 = 1 then l ++ [zero32] else l

/-- The `while len(nodes) > 1` loop of lines 171-174. -/
def merkleLoop (sha : List Nat → List Nat) (nodes : List (List Nat)) : List (List Nat) :=
  if 1 < nodes.length then merkleLoop sha (pairHash sha (padEven nodes)) else nodes
termination_by nodes.length
decreasing_by
  have key : ∀ m (l : List (List Nat)), l.length ≤ m → (pairHash sha l).length = l.length / 2 := by
    intro m
    induction m with
    | zero =>
      intro l hl
      have h0 : l = [] := List.eq_nil_of_length_eq_zero (Nat.le_zero.mp hl)
      subst h0
      simp [pairHash]
    | succ m ih =>
      intro l hl
      rcases l with _ | ⟨a, rest1⟩
      · simp [pairHash]
      rcases rest1 with _ | ⟨b, rest⟩
      · simp [pairHash]
      · have hr := ih rest (by simp at hl; omega)
        simp [pairHash, hr]
        omega
  have hp : (padEven nodes).length = if nodes.length % 2 = 1 then nodes.length + 1 else nodes.length := by
    unfold padEven
    split
    · simp
    · rfl
  rw [key (padEven nodes).length (padEven nodes) (le_refl _), hp]
  split
  all_goals omega

/-- `HashableMerkleTree.calcMerkleRoot` (src/blockchain.py lines 161-175),
over the list of the items' `getHash()` values and an opaque sha256. -/
def calcMerkleRoot (sha : List Nat → List Nat) : List Nat → Nat
  | [] => 0
  | [h] => h
  | l => fromBytesBE ((merkleLoop sha (l.map toBytes32)).headD [])

/-- Modelled from the spec's words (§4.1): one level of the reduction —
"if the count is odd append one synthetic all-zero 32-byte buffer, then
pair up adjacent buffers left-to-right and replace each pair (L, R)
with sha256(L || R)". -/
def specLevel (sha : List Nat → List Nat) (l : List (List Nat)) : List (List Nat) :=
  let padded := if l.length % 2 = 1 then l ++ [zero32] else l
  (List.range (padded.length / 2)).map
    (fun i => sha (padded.getD (2 * i) [] ++ padded.getD (2 * i + 1) []))

/-- Modelled from the spec's words (§4.1): "repeat until one buffer remains". -/
def specLoop (sha : List Nat → List Nat) (l : List (List Nat)) : List (List Nat) :=
  if 1 < l.length then specLoop sha (specLevel sha l) else l
termination_by l.length
decreasing_by
  have hlev : (specLevel sha l).length =
      (if l.length % 2 = 1 then l.length + 1 else l.length) / 2 := by
    unfold specLevel
    split
    · simp
    · simp
  rw [hlev]
  split
  all_goals omega

/-- Modelled from the spec's words (§4.1): the full merkle-root contract
(0 for the empty sequence, the item's own hash for one item, otherwise
the level-by-level reduction on 32-byte big-endian buffers). -/
def merkleRootSpec (sha : List Nat → List Nat) : List Nat → Nat
  | [] => 0
  | [h] => h
  | l => fromBytesBE ((specLoop sha (l.map toBytes32)).headD [])

/-- A heap of Python dict objects: cell `r` holds a UTXO dictionary.
Used to state the frame property of `Block.validate` (claim C8): the
Python code mutates dict objects in place, so the embedding threads an
explicit store and shows the input cell is never written. -/
abbrev Heap : Type := List Utxo

/-- Dereference a dict object. -/
def hRead : Heap → Nat → Utxo
  | [], _ => []
  | c :: _, 0 => c
  | _ :: rest, n + 1 => hRead rest n

/-- In-place mutation of the dict object at `r`. -/
def hWrite : Heap → Nat → Utxo → Heap
  | [], _, _ => []
  | _ :: rest, 0, u => u :: rest
  | c :: rest, n + 1, u => c :: hWrite rest n u

/-- Lines 282-283 with the accumulating dict held in cell `nr`:
each `new_utxo[(tx.getHash(), idx)] = output` is an in-place write. -/
def addOutputsH (nr txh : Nat) : Heap → Nat → List Output → Heap
  | σ, _, [] => σ
  | σ, idx, o :: rest =>
    addOutputsH nr txh (hWrite σ nr (dInsert (hRead σ nr) (txh, (idx : Int)) o)) (idx + 1) rest

/-- Lines 285-290 with in-place deletion from cell `nr`; `false` is the
`return None` taken when a reference is absent. -/
def removeInputsH (nr : Nat) : Heap → List Input → Bool × Heap
  | σ, [] => (true, σ)
  | σ, i :: rest =>
    if dMem (hRead σ nr) (i.txHash, i.txIdx) then
      removeInputsH nr (hWrite σ nr (dErase (hRead σ nr) (i.txHash, i.txIdx))) rest
    else (false, σ)

/-- Lines 276-290 (the loop over `self.transactions[1:]`) acting on the
accumulating dict in cell `nr`. -/
def processTxsH (Htx : Transaction → Nat) (nr : Nat) : Heap → List Transaction → Except Unit Bool × Heap
  | σ, [] => (.ok true, σ)
  | σ, tx :: rest =>
    match Transaction.validate tx (hRead σ nr) with
    | .error e => (.error e, σ)
    | .ok false => (.ok false, σ)
    | .ok true =>
      match tx.inputs with
      | none => (.error (), addOutputsH nr (Htx tx) σ 0 tx.outputs)
      | some inps =>
        match removeInputsH nr (addOutputsH nr (Htx tx) σ 0 tx.outputs) inps with
        | (false, σ2) => (.ok false, σ2)
        | (true, σ2) => processTxsH Htx nr σ2 rest

/-- `Block.validate` (lines 251-293) over the heap: the passed-in set
lives in cell `r`; line 267 (`new_utxo = unspentOutputs.copy()`)
allocates a fresh cell holding a copy, and every later mutation targets
that fresh cell.  Returns the cell of the resulting set when valid. -/
def Block.validateH (Htx : Transaction → Nat) (H : Block → Nat) (b : Block)
    (σ : Heap) (r : Nat) (maxMint : Int) : Except Unit (Option Nat) × Heap :=
  if b.target ≤ H b then (.ok none, σ)
  else
    match b.transactions with
    | [] => (.ok (some σ.length), σ ++ [hRead σ r])
    | coinbase :: rest =>
      if coinbase.validateMint maxMint = false then (.ok none, σ ++ [hRead σ r])
      else
        match processTxsH Htx σ.length (σ ++ [hRead σ r]) rest with
        | (.error e, σ2) => (.error e, σ2)
        | (.ok false, σ2) => (.ok none, σ2)
        | (.ok true, σ2) => (.ok (some σ.length), σ2)

/-- `Transaction.validate` (lines 125-139) over the heap: the source
only ever reads `unspentOutputDict` (lines 131 and 137), so its
heap-level effect is the identity. -/
def Transaction.validateH (t : Transaction) (σ : Heap) (r : Nat) : Except Unit Bool × Heap :=
  (Transaction.validate t (hRead σ r), σ)

/-- `Blockchain` state (src/blockchain.py lines 295-316): the three
index maps (insertion-ordered dicts keyed by block hash) and the two
consensus parameters. -/
structure Blockchain where
  genesisTarget : Nat
  maxMint : Int
  blocks : List (Nat × Block)
  work : List (Nat × ℚ)
  utxo : List (Nat × Utxo)

/-- `Blockchain.getWork` (lines 325-327): `genesisTarget / target`
(Python float division of two ints, modelled in ℚ; every call on a
reachable path has a positive target). -/
def Blockchain.getWork (s : Blockchain) (target : Nat) : ℚ :=
  (s.genesisTarget : ℚ) / (target : ℚ)

/-- `Blockchain.__init__` (lines 297-316) given the already-mined
genesis block `g` (mining is an unbounded nonce search; reachability
assumes its postcondition `H g < genesisTarget`).  The genesis block is
recorded in `blocks` and `cumulative_work`; `utxo_state` starts empty. -/
def Blockchain.init (H : Block → Nat) (g : Block) (gT : Nat) (mM : Int) : Blockchain :=
  { genesisTarget := gT
    maxMint := mM
    blocks := [(H g, g)]
    work := [(H g, (gT : ℚ) / (gT : ℚ))]
    utxo := [] }

/-- Lines 378-389 of `extend`: validate `b` against the parent snapshot
`unspent` and, on success, record block, cumulative work and snapshot.
The work lookup `self.cumulative_work[block.getPriorBlockHash()]`
happens after the `blocks` insertion, so its KeyError (never reachable)
leaves the blocks map already updated. -/
def Blockchain.extendWith (Htx : Transaction → Nat) (H : Block → Nat)
    (s : Blockchain) (b : Block) (unspent : Utxo) : Except Unit Bool × Blockchain :=
  match Block.validate Htx H b unspent s.maxMint with
  | .error e => (.error e, s)
  | .ok none => (.ok false, s)
  | .ok (some nu) =>
    match dLookup s.work b.priorHash with
    | none => (.error (), { s with blocks := dInsert s.blocks (H b) b })
    | some wp =>
      (.ok true,
        { s with
          blocks := dInsert s.blocks (H b) b
          work := dInsert s.work (H b) (wp + s.getWork b.target)
          utxo := dInsert s.utxo (H b) nu })

/-- `Blockchain.extend` (lines 349-389).  When the parent has no cached
snapshot (the genesis case, lines 370-376) the parent is re-validated
from the empty set and its snapshot is cached — before the new block is
validated. -/
def Blockchain.extend (Htx : Transaction → Nat) (H : Block → Nat)
    (s : Blockchain) (b : Block) : Except Unit Bool × Blockchain :=
  match dLookup s.blocks b.priorHash with
  | none => (.ok false, s)
  | some prior =>
    match dLookup s.utxo (H prior) with
    | some unspent => Blockchain.extendWith Htx H s b unspent
    | none =>
      match Block.validate Htx H prior [] s.maxMint with
      | .error e => (.error e, s)
      | .ok none => (.ok false, s)
      | .ok (some unspent) =>
        Blockchain.extendWith Htx H
          { s with utxo := dInsert s.utxo (H prior) unspent } b unspent

/-- Line 320: `max(self.cumulative_work, key=self.cumulative_work.get)`
— Python `max` keeps the first element attaining the maximum, scanning
in insertion order. -/
def maxGo (best : Nat × ℚ) : List (Nat × ℚ) → Nat × ℚ
  | [] => best
  | q :: r => maxGo (if best.2 < q.2 then q else best) r

/-- The key of maximum cumulative work (`none` only for an empty map,
where Python `max` would raise ValueError — unreachable). -/
def maxByKey : List (Nat × ℚ) → Option Nat
  | [] => none
  | p :: rest => some (maxGo p rest).1

/-- `Blockchain.getTip` (lines 318-323): find the max-work key, then
scan `self.blocks` for it (implicit `None` when absent). -/
def Blockchain.getTip (s : Blockchain) : Option Block :=
  match maxByKey s.work with
  | none => none
  | some k => dLookup s.blocks k

/-- Lines 339-343: the parent-hop counting loop of
`getBlocksAtHeight`, with explicit fuel (the Python `while` can only
fail to terminate on a parent cycle, impossible on reachable states —
see `getBlocksAtHeight_spec`). -/
def heightWalk (blocks : List (Nat × Block)) : Block → Nat → Nat → Option Nat
  | _, _, 0 => none
  | cur, acc, fuel + 1 =>
    match dLookup blocks cur.priorHash with
    | none => some acc
    | some p => heightWalk blocks p (acc + 1) fuel

/-- Lines 336-347: iterate the blocks dict in insertion order, keep
those whose walked height equals `height`. -/
def collectAtHeight (blocks : List (Nat × Block)) (fuel height : Nat) :
    List (Nat × Block) → Option (List Block)
  | [] => some []
  | (_, b) :: rest =>
    match heightWalk blocks b 0 fuel with
    | none => none
    | some n =>
      match collectAtHeight blocks fuel height rest with
      | none => none
      | some acc => some (if n = height then b :: acc else acc)

/-- `Blockchain.getBlocksAtHeight` (lines 333-347). -/
def Blockchain.getBlocksAtHeight (s : Blockchain) (height : Nat) : Option (List Block) :=
  collectAtHeight s.blocks (s.blocks.length + 1) height s.blocks

/-- Modelled from the spec's words (§4.4): "height of a block = number
of parent-hops from it back to a block whose parent is not itself in
the index (the chain's root)". -/
inductive IsHeight (blocks : List (Nat × Block)) : Block → Nat → Prop where
  | root (b : Block) : dLookup blocks b.priorHash = none → IsHeight blocks b 0
  | step (b p : Block) (n : Nat) : dLookup blocks b.priorHash = some p →
      IsHeight blocks p n → IsHeight blocks b (n + 1)

/-- The states the chain index can actually be in: the constructor
state followed by any sequence of `extend` calls.  The side conditions
carry the idealised-hash assumptions: block hashes are never 0 (the
genesis `priorHash` sentinel) and an attempted block never collides
with a differing accepted block. -/
inductive Reachable (Htx : Transaction → Nat) (H : Block → Nat)
    (g : Block) (gT : Nat) (mM : Int) : Blockchain → Prop where
  | base : H g < gT → H g ≠ 0 → g.priorHash = 0 →
      Reachable Htx H g gT mM (Blockchain.init H g gT mM)
  | step {s : Blockchain} {b : Block} {r : Except Unit Bool} {s' : Blockchain} :
      Reachable Htx H g gT mM s →
      H b ≠ 0 →
      (∀ b', dLookup s.blocks (H b) = some b' → b' = b) →
      Blockchain.extend Htx H s b = (r, s') →
      Reachable Htx H g gT mM s'

/-- The index invariant maintained by `init` and `extend` (used by
claims C3, C7 and C9). -/
structure ChainInv (H : Block → Nat) (g : Block) (gT : Nat) (s : Blockchain) : Prop where
  gt_pos : 0 < gT
  hg_ne : H g ≠ 0
  genesisT : s.genesisTarget = gT
  gen_first : s.blocks.head? = some (H g, g)
  keys_nodup : (s.blocks.map Prod.fst).Nodup
  keys_hash : ∀ kb ∈ s.blocks, kb.1 = H kb.2 ∧ kb.1 ≠ 0
  work_keys : s.work.map Prod.fst = s.blocks.map Prod.fst
  shape : ∀ i kb, s.blocks.get? i = some kb →
      (kb.2.priorHash = 0 ∧ i = 0) ∨
      ∃ j kb2, j < i ∧ s.blocks.get? j = some kb2 ∧ kb2.1 = kb.2.priorHash
  work_gen : dLookup s.work (H g) = some ((gT : ℚ) / (gT : ℚ))
  work_acc : ∀ k b, dLookup s.blocks k = some b → b.priorHash ≠ 0 →
      ∃ wp, dLookup s.work b.priorHash = some wp ∧
        dLookup s.work k = some (wp + (gT : ℚ) / (b.target : ℚ))

/-- A concrete "hash" for witness chains: the nonce field. -/
def nonceHash : Block → Nat := fun b => b.nonce

/-- A concrete mined genesis block for witness chains (hash 1 < target 10). -/
def gBlock : Block := { priorHash := 0, target := 10, nonce := 1, transactions := [] }

/-- A concrete empty child of `gBlock` (hash 3 < target 5). -/
def b1Block : Block := { priorHash := 1, target := 5, nonce := 3, transactions := [] }

/-- A block failing proof of work (hash 2 ≥ target 0) used for claim C3:
extending with it fails, yet caches the genesis snapshot. -/
def badBlock : Block := { priorHash := 1, target := 0, nonce := 2, transactions := [] }

/-- The initial chain for the witness scenarios. -/
def chain0 : Blockchain := Blockchain.init nonceHash gBlock 10 100

/-- The two-block chain: `chain0` successfully extended with `b1Block`. -/
def chain1 : Blockchain := (Blockchain.extend (fun _ => 0) nonceHash chain0 b1Block).2

-- ===== THEOREMS =====

/-- Claim C5: `validateMint(n)` is true iff the inputs are absent or
empty and the summed output amounts are at most `n` (so outputs summing
to exactly `n` pass and to `n + 1` fail). -/
theorem validateMint_iff (t : Transaction) (n : Int) :
    t.validateMint n = true ↔
      ((t.inputs = none ∨ t.inputs = some []) ∧ sumAmounts t.outputs ≤ n) := by
  unfold Transaction.validateMint
  match h : t.inputs with
  | none => simp [pyTruthy]
  | some [] => simp [pyTruthy]
  | some (i :: rest) => simp [pyTruthy]

/-- Claim C4: `Block.validate` fails on a hash at or above the target;
a sub-target hash with an empty transaction list is valid and returns
the input set unchanged; a non-empty transaction list whose first
element fails `validateMint` makes the block invalid. -/
theorem block_validate_cases (Htx : Transaction → Nat) (H : Block → Nat)
    (b : Block) (u : Utxo) (mM : Int) :
    (b.target ≤ H b → Block.validate Htx H b u mM = .ok none)
    ∧ (H b < b.target → b.transactions = [] →
        Block.validate Htx H b u mM = .ok (some u))
    ∧ (∀ cb rest, H b < b.target → b.transactions = cb :: rest →
        cb.validateMint mM = false → Block.validate Htx H b u mM = .ok none) := by
  refine ⟨fun hge => ?_, fun hlt hemp => ?_, fun cb rest hlt htx hmint => ?_⟩
  · unfold Block.validate
    simp [hge]
  · unfold Block.validate
    simp [hemp, Nat.not_le.mpr hlt]
  · unfold Block.validate
    simp [htx, hmint, Nat.not_le.mpr hlt]

/-- Witness for C4 at concrete blocks. -/
theorem block_validate_cases_witness :
    Block.validate (fun _ => 0) (fun _ => 5) { priorHash := 0, target := 3, nonce := 0, transactions := [] } [] 0 = .ok none
    ∧ Block.validate (fun _ => 0) (fun _ => 1) { priorHash := 0, target := 3, nonce := 0, transactions := [] } [] 0 = .ok (some [])
    ∧ Block.validate (fun _ => 0) (fun _ => 0) c1Block [] 99 = .ok none :=
  ⟨(block_validate_cases _ _ _ _ _).1 (by decide),
   (block_validate_cases _ _ _ _ _).2.1 (by decide) rfl,
   (block_validate_cases (fun _ => 0) (fun _ => 0) c1Block [] 99).2.2 c1MintTx [] (by decide) rfl (by decide)⟩

/-- Claim C1 (failing input): a valid block whose only transaction is a
coinbase minting 100 coins is accepted, yet the returned UTXO set is
empty — the coinbase's outputs are never added (only `transactions[1:]`
get their outputs inserted on lines 282-283), so the total UTXO value
is 0, not the 100 minted. -/
theorem c1_coinbase_outputs_dropped :
    Block.validate (fun _ => 5) (fun _ => 0) c1Block [] 100 = Except.ok (some ([] : Utxo))
    ∧ sumAmounts c1MintTx.outputs = 100 := ⟨rfl, rfl⟩

/-- Claim C2 (failing inputs): `Transaction.validate` propagates a
constraint-script exception, propagates the KeyError of a missing
reference, and accepts a constraint returning the truthy int 1 instead
of exactly `True` — contradicting lines 29-30 of the module docstring. -/
theorem c2_exceptions_propagate :
    Transaction.validate c2SpendTx c2UtxoThrow = .error ()
    ∧ Transaction.validate c2MissingTx c2UtxoThrow = .error ()
    ∧ Transaction.validate c2SpendTx c2UtxoTruthy = .ok true := ⟨rfl, rfl, rfl⟩

/-- Claim C10: `getOutput(n)` returns the output at index `n` for
`0 ≤ n < len` and `None` for `n ≥ len`; for `-len ≤ n < 0` it returns
the element indexed from the end, not `None`. -/
theorem getOutput_spec (t : Transaction) (n : Int) :
    (0 ≤ n → t.getOutput n = .ok (t.outputs.get? n.toNat))
    ∧ (-(t.outputs.length : Int) ≤ n → n < 0 →
        ∃ o, t.outputs.get? (n + (t.outputs.length : Int)).toNat = some o
          ∧ t.getOutput n = .ok (some o)) := by
  constructor
  · intro hn
    unfold Transaction.getOutput pyListGet
    by_cases hlt : n < (t.outputs.length : Int)
    · have hidx : n.toNat < t.outputs.length := by omega
      have : ∃ o, t.outputs.get? n.toNat = some o := by
        rcases h : t.outputs.get? n.toNat with _ | o
        · rw [List.get?_eq_none] at h; omega
        · exact ⟨o, rfl⟩
      rcases this with ⟨o, ho⟩
      simp [hlt, hn, ho]
    · have hge : t.outputs.length ≤ n.toNat := by omega
      rw [if_neg hlt, List.get?_eq_none.mpr hge]
  · intro hlb hneg
    have hlen : 0 < t.outputs.length := by omega
    have hlt : n < (t.outputs.length : Int) := by omega
    have hidx : (n + (t.outputs.length : Int)).toNat < t.outputs.length := by omega
    have : ∃ o, t.outputs.get? (n + (t.outputs.length : Int)).toNat = some o := by
      rcases h : t.outputs.get? (n + (t.outputs.length : Int)).toNat with _ | o
      · rw [List.get?_eq_none] at h; omega
      · exact ⟨o, rfl⟩
    rcases this with ⟨o, ho⟩
    refine ⟨o, ho, ?_⟩
    unfold Transaction.getOutput pyListGet
    rw [if_pos hlt, if_neg (Int.not_le.mpr hneg),
      if_pos (show (0 : Int) ≤ n + t.outputs.length by omega), ho]

/-- Witness for C10 on a two-output transaction at indices 1, 5 and -1. -/
theorem getOutput_spec_witness :
    ({ inputs := none, outputs := [throwingOutput, truthyOutput], data := none } : Transaction).getOutput 1
        = .ok (some truthyOutput)
    ∧ ({ inputs := none, outputs := [throwingOutput, truthyOutput], data := none } : Transaction).getOutput 5
        = .ok none
    ∧ ∃ o, ({ inputs := none, outputs := [throwingOutput, truthyOutput], data := none } : Transaction).getOutput (-1)
        = .ok (some o) := by
  refine ⟨?_, ?_, ?_⟩
  · exact (getOutput_spec _ 1).1 (by decide)
  · exact (getOutput_spec _ 5).1 (by decide)
  · rcases (getOutput_spec ({ inputs := none, outputs := [throwingOutput, truthyOutput], data := none } : Transaction) (-1)).2
        (by simp) (by decide) with ⟨o, _, ho⟩
    exact ⟨o, ho⟩

theorem pairHash_length (sha : List Nat → List Nat) :
    (l : List (List Nat)) → (pairHash sha l).length = l.length / 2
  | [] => by simp [pairHash]
  | [_] => by simp [pairHash]
  | a :: b :: rest => by
    simp [pairHash, pairHash_length sha rest]
    omega

theorem pairHash_eq_indexed (sha : List Nat → List Nat) :
    (l : List (List Nat)) →
      pairHash sha l = (List.range (l.length / 2)).map
        (fun i => sha (l.getD (2 * i) [] ++ l.getD (2 * i + 1) []))
  | [] => by simp [pairHash]
  | [_] => by simp [pairHash]
  | a :: b :: rest => by
    have ih := pairHash_eq_indexed sha rest
    have hlen : (a :: b :: rest).length / 2 = rest.length / 2 + 1 := by simp; omega
    rw [show pairHash sha (a :: b :: rest) = sha (a ++ b) :: pairHash sha rest from by simp [pairHash],
      ih, hlen, List.range_succ_eq_map, List.map_cons, List.map_map]
    rfl

theorem padEven_length (l : List (List Nat)) :
    (padEven l).length = if l.length % 2 = 1 then l.length + 1 else l.length := by
  unfold padEven
  split
  · simp
  · rfl

theorem specLevel_eq_pairHash (sha : List Nat → List Nat) (l : List (List Nat)) :
    specLevel sha l = pairHash sha (padEven l) := by
  rw [pairHash_eq_indexed]
  unfold specLevel padEven
  rfl

theorem specLevel_length (sha : List Nat → List Nat) (l : List (List Nat)) :
    (specLevel sha l).length = (padEven l).length / 2 := by
  rw [specLevel_eq_pairHash, pairHash_length]

theorem merkleLoop_eq_specLoop_aux (sha : List Nat → List Nat) :
    ∀ n (l : List (List Nat)), l.length ≤ n → merkleLoop sha l = specLoop sha l := by
  intro n
  induction n with
  | zero =>
    intro l hl
    rw [merkleLoop, specLoop]
    have h : ¬ 1 < l.length := by omega
    simp [h]
  | succ n ih =>
    intro l hl
    rw [merkleLoop, specLoop]
    by_cases h : 1 < l.length
    · simp only [if_pos h]
      rw [← specLevel_eq_pairHash]
      apply ih
      have := specLevel_length sha l
      have := padEven_length l
      by_cases hodd : l.length % 2 = 1
      · simp [hodd] at *
        omega
      · simp [hodd] at *
        omega
    · simp [h]

theorem merkleLoop_eq_specLoop (sha : List Nat → List Nat) (l : List (List Nat)) :
    merkleLoop sha l = specLoop sha l :=
  merkleLoop_eq_specLoop_aux sha l.length l (le_refl _)

/-- Claim C6: `calcMerkleRoot` returns 0 for the empty sequence, the
single item's own hash (no extra hashing round) for one item, and
otherwise the value described by the spec: each hash becomes a 32-byte
big-endian buffer, each level is padded with one all-zero buffer when
odd and adjacent pairs (L, R) are replaced left-to-right by
sha256(L || R) until one buffer remains, converted back to a big-endian
integer, input order preserved. -/
theorem calcMerkleRoot_matches_spec (sha : List Nat → List Nat) :
    calcMerkleRoot sha [] = 0
    ∧ (∀ h, calcMerkleRoot sha [h] = h)
    ∧ ∀ hashes, calcMerkleRoot sha hashes = merkleRootSpec sha hashes := by
  refine ⟨rfl, fun h => rfl, fun hashes => ?_⟩
  match hashes with
  | [] => rfl
  | [h] => rfl
  | a :: b :: rest =>
    show fromBytesBE ((merkleLoop sha ((a :: b :: rest).map toBytes32)).headD [])
       = fromBytesBE ((specLoop sha ((a :: b :: rest).map toBytes32)).headD [])
    rw [merkleLoop_eq_specLoop]

theorem hRead_hWrite_ne :
    ∀ (σ : Heap) (n i : Nat) (u : Utxo), i ≠ n → hRead (hWrite σ n u) i = hRead σ i
  | [], _, _, _, _ => rfl
  | _ :: _, 0, 0, _, h => absurd rfl h
  | _ :: _, 0, _ + 1, _, _ => rfl
  | _ :: _, _ + 1, 0, _, _ => rfl
  | _ :: rest, n + 1, i + 1, u, h =>
    hRead_hWrite_ne rest n i u (fun e => h (by omega))

theorem hRead_append_lt :
    ∀ (σ : Heap) (u : Utxo) (i : Nat), i < σ.length → hRead (σ ++ [u]) i = hRead σ i
  | [], _, _, h => absurd h (by simp)
  | _ :: _, _, 0, _ => rfl
  | _ :: rest, u, i + 1, h => hRead_append_lt rest u i (by simp at h; omega)

theorem addOutputsH_frame (nr txh : Nat) :
    ∀ (outs : List Output) (σ : Heap) (idx i : Nat), i ≠ nr →
      hRead (addOutputsH nr txh σ idx outs) i = hRead σ i
  | [], _, _, _, _ => rfl
  | o :: rest, σ, idx, i, h => by
    simp only [addOutputsH]
    rw [addOutputsH_frame nr txh rest _ _ i h, hRead_hWrite_ne _ _ _ _ h]

theorem removeInputsH_frame (nr : Nat) :
    ∀ (inps : List Input) (σ : Heap) (i : Nat), i ≠ nr →
      hRead (removeInputsH nr σ inps).2 i = hRead σ i
  | [], _, _, _ => rfl
  | inp :: rest, σ, i, h => by
    simp only [removeInputsH]
    by_cases hm : dMem (hRead σ nr) (inp.txHash, inp.txIdx) = true
    · rw [if_pos hm, removeInputsH_frame nr rest _ i h, hRead_hWrite_ne _ _ _ _ h]
    · rw [if_neg hm]

theorem processTxsH_frame (Htx : Transaction → Nat) (nr : Nat) :
    ∀ (txs : List Transaction) (σ : Heap) (i : Nat), i ≠ nr →
      hRead (processTxsH Htx nr σ txs).2 i = hRead σ i
  | [], _, _, _ => rfl
  | tx :: rest, σ, i, h => by
    rcases hv : Transaction.validate tx (hRead σ nr) with e | bv
    · simp only [processTxsH, hv]
    · cases bv with
      | false => simp only [processTxsH, hv]
      | true =>
        have hao := addOutputsH_frame nr (Htx tx) tx.outputs σ 0 i h
        rcases hi : tx.inputs with _ | inps
        · simp only [processTxsH, hv, hi]
          exact hao
        · have hrm := removeInputsH_frame nr inps (addOutputsH nr (Htx tx) σ 0 tx.outputs) i h
          rcases hr : removeInputsH nr (addOutputsH nr (Htx tx) σ 0 tx.outputs) inps with ⟨fl, σ2⟩
          rw [hr] at hrm
          cases fl with
          | false =>
            simp only [processTxsH, hv, hi, hr]
            rw [hrm, hao]
          | true =>
            simp only [processTxsH, hv, hi, hr]
            rw [processTxsH_frame Htx nr rest σ2 i h, hrm, hao]

/-- Claim C8: `Block.validate` never mutates the passed-in UTXO set —
in the heap embedding every pre-existing cell (in particular the input
cell `r`) is unchanged, and a valid result lives in the freshly
allocated cell (`σ.length`, the copy made on line 267); and
`Transaction.validate` performs no heap mutation at all. -/
theorem block_validate_no_mutation (Htx : Transaction → Nat) (H : Block → Nat)
    (b : Block) (σ : Heap) (r : Nat) (mM : Int) :
    (∀ i, i < σ.length → hRead (Block.validateH Htx H b σ r mM).2 i = hRead σ i)
    ∧ (∀ nr, (Block.validateH Htx H b σ r mM).1 = .ok (some nr) → nr = σ.length)
    ∧ ∀ (t : Transaction) (σ2 : Heap) (r2 : Nat), (Transaction.validateH t σ2 r2).2 = σ2 := by
  refine ⟨?_, ?_, fun t σ2 r2 => rfl⟩
  · intro i hi
    by_cases hpow : b.target ≤ H b
    · simp only [Block.validateH, if_pos hpow]
    · rcases htx : b.transactions with _ | ⟨coinbase, rest⟩
      · simp only [Block.validateH, if_neg hpow, htx]
        exact hRead_append_lt σ _ i hi
      · have hne : i ≠ σ.length := by omega
        have hfr := processTxsH_frame Htx σ.length rest (σ ++ [hRead σ r]) i hne
        by_cases hmint : coinbase.validateMint mM = false
        · simp only [Block.validateH, if_neg hpow, htx, if_pos hmint]
          exact hRead_append_lt σ _ i hi
        · rcases hp : processTxsH Htx σ.length (σ ++ [hRead σ r]) rest with ⟨res, σ2⟩
          rw [hp] at hfr
          rcases res with e | bv
          · simp only [Block.validateH, if_neg hpow, htx, if_neg hmint, hp]
            rw [hfr, hRead_append_lt σ _ i hi]
          · cases bv with
            | false =>
              simp only [Block.validateH, if_neg hpow, htx, if_neg hmint, hp]
              rw [hfr, hRead_append_lt σ _ i hi]
            | true =>
              simp only [Block.validateH, if_neg hpow, htx, if_neg hmint, hp]
              rw [hfr, hRead_append_lt σ _ i hi]
  · intro nr hnr
    by_cases hpow : b.target ≤ H b
    · simp only [Block.validateH, if_pos hpow] at hnr
      exact absurd hnr (by simp)
    · rcases htx : b.transactions with _ | ⟨coinbase, rest⟩
      · simp only [Block.validateH, if_neg hpow, htx] at hnr
        simp at hnr
        omega
      · by_cases hmint : coinbase.validateMint mM = false
        · simp only [Block.validateH, if_neg hpow, htx, if_pos hmint] at hnr
          exact absurd hnr (by simp)
        · rcases hp : processTxsH Htx σ.length (σ ++ [hRead σ r]) rest with ⟨res, σ2⟩
          rcases res with e | bv
          · simp only [Block.validateH, if_neg hpow, htx, if_neg hmint, hp] at hnr
            exact absurd hnr (by simp)
          · cases bv with
            | false =>
              simp only [Block.validateH, if_neg hpow, htx, if_neg hmint, hp] at hnr
              exact absurd hnr (by simp)
            | true =>
              simp only [Block.validateH, if_neg hpow, htx, if_neg hmint, hp] at hnr
              simp at hnr
              omega

/-- Witness for C8: a concrete spend block validated against a one-cell
heap leaves the input cell untouched. -/
theorem block_validate_no_mutation_witness :
    hRead (Block.validateH (fun _ => 5) (fun _ => 0) c1Block [c2UtxoTruthy] 0 100).2 0
        = hRead [c2UtxoTruthy] 0
    ∧ (Transaction.validateH c2SpendTx [c2UtxoTruthy] 0).2 = [c2UtxoTruthy] :=
  ⟨(block_validate_no_mutation (fun _ => 5) (fun _ => 0) c1Block [c2UtxoTruthy] 0 100).1 0 (by decide),
   (block_validate_no_mutation (fun _ => 5) (fun _ => 0) c1Block [c2UtxoTruthy] 0 100).2.2 c2SpendTx [c2UtxoTruthy] 0⟩

theorem dLookup_dInsert {κ α : Type} [DecidableEq κ] :
    ∀ (l : List (κ × α)) (k0 k : κ) (v : α),
      dLookup (dInsert l k0 v) k = if k0 = k then some v else dLookup l k
  | [], k0, k, v => by simp only [dInsert, dLookup]
  | (k', v') :: rest, k0, k, v => by
    by_cases h : k' = k0
    · subst h
      simp only [dInsert, if_pos rfl, dLookup]
      by_cases hk : k' = k
      · simp [hk]
      · simp [hk]
    · simp only [dInsert, if_neg h, dLookup]
      by_cases hk : k' = k
      · subst hk
        have h2 : k0 ≠ k' := fun e => h e.symm
        simp [h2]
      · simp only [if_neg hk]
        exact dLookup_dInsert rest k0 k v

theorem dInsert_self {κ α : Type} [DecidableEq κ] :
    ∀ (l : List (κ × α)) (k : κ) (v : α), dLookup l k = some v → dInsert l k v = l
  | [], k, v, h => by simp [dLookup] at h
  | (k', v') :: rest, k, v, h => by
    by_cases hk : k' = k
    · subst hk
      simp [dLookup] at h
      subst h
      simp [dInsert]
    · simp only [dLookup, if_neg hk] at h
      simp only [dInsert, if_neg hk]
      rw [dInsert_self rest k v h]

theorem mem_of_dLookup {κ α : Type} [DecidableEq κ] :
    ∀ (l : List (κ × α)) (k : κ) (v : α), dLookup l k = some v → (k, v) ∈ l
  | [], k, v, h => by simp [dLookup] at h
  | (k', v') :: rest, k, v, h => by
    by_cases hk : k' = k
    · subst hk
      simp [dLookup] at h
      rw [h]
      exact List.mem_cons_self _ _
    · simp only [dLookup, if_neg hk] at h
      exact List.mem_cons_of_mem _ (mem_of_dLookup rest k v h)

theorem dLookup_of_mem {κ α : Type} [DecidableEq κ] :
    ∀ (l : List (κ × α)) (k : κ) (v : α), (k, v) ∈ l → (l.map Prod.fst).Nodup →
      dLookup l k = some v
  | [], k, v, h, _ => by simp at h
  | (k', v') :: rest, k, v, h, hnd => by
    have hnd' : k' ∉ rest.map Prod.fst ∧ (rest.map Prod.fst).Nodup := by
      rw [List.map_cons, List.nodup_cons] at hnd
      exact hnd
    rcases List.mem_cons.mp h with heq | hrest
    · injection heq with h1 h2
      subst h1
      subst h2
      simp [dLookup]
    · have hk : k' ≠ k := by
        intro e
        subst e
        exact hnd'.1 (List.mem_map.mpr ⟨(k', v), hrest, rfl⟩)
      simp only [dLookup, if_neg hk]
      exact dLookup_of_mem rest k v hrest hnd'.2

theorem dLookup_isSome_iff {κ α : Type} [DecidableEq κ] :
    ∀ (l : List (κ × α)) (k : κ), (dLookup l k).isSome = true ↔ k ∈ l.map Prod.fst
  | [], k => by simp [dLookup]
  | (k', v') :: rest, k => by
    by_cases hk : k' = k
    · subst hk
      simp [dLookup]
    · simp only [dLookup, if_neg hk, List.map_cons, List.mem_cons]
      rw [dLookup_isSome_iff rest k]
      constructor
      · exact fun h => Or.inr h
      · rintro (h | h)
        · exact absurd h.symm hk
        · exact h

theorem dInsert_append_of_not_mem {κ α : Type} [DecidableEq κ] :
    ∀ (l : List (κ × α)) (k : κ) (v : α), k ∉ l.map Prod.fst →
      dInsert l k v = l ++ [(k, v)]
  | [], k, v, _ => rfl
  | (k', v') :: rest, k, v, h => by
    have hk : k' ≠ k := by
      intro e
      exact h (by simp [e])
    simp only [dInsert, if_neg hk, List.cons_append]
    rw [dInsert_append_of_not_mem rest k v
      (fun hm => h (by simp only [List.map_cons, List.mem_cons]; exact Or.inr hm))]

theorem dLookup_append_left {κ α : Type} [DecidableEq κ] :
    ∀ (l l2 : List (κ × α)) (k : κ) (v : α), dLookup l k = some v →
      dLookup (l ++ l2) k = some v
  | [], l2, k, v, h => by simp [dLookup] at h
  | (k', v') :: rest, l2, k, v, h => by
    by_cases hk : k' = k
    · subst hk
      simp [dLookup] at h
      simp [dLookup, h]
    · simp only [dLookup, if_neg hk] at h
      simp only [List.cons_append, dLookup, if_neg hk]
      exact dLookup_append_left rest l2 k v h

theorem dLookup_append_single {κ α : Type} [DecidableEq κ] :
    ∀ (l : List (κ × α)) (k0 k : κ) (v0 : α), dLookup l k = none →
      dLookup (l ++ [(k0, v0)]) k = if k0 = k then some v0 else none
  | [], k0, k, v0, _ => by simp [dLookup]
  | (k', v') :: rest, k0, k, v0, h => by
    by_cases hk : k' = k
    · subst hk
      simp [dLookup] at h
    · simp only [dLookup, if_neg hk] at h
      simp only [List.cons_append, dLookup, if_neg hk]
      exact dLookup_append_single rest k0 k v0 h

theorem dLookup_none_of_ne_keys {κ α : Type} [DecidableEq κ]
    (l : List (κ × α)) (k : κ) (h : ∀ kb ∈ l, kb.1 ≠ k) : dLookup l k = none := by
  rcases hl : dLookup l k with _ | v
  · rfl
  · have := mem_of_dLookup l k v hl
    exact absurd rfl (h (k, v) this)

theorem maxGo_mem : ∀ (best : Nat × ℚ) (l : List (Nat × ℚ)), maxGo best l ∈ best :: l
  | best, [] => List.mem_cons_self _ _
  | best, q :: r => by
    simp only [maxGo]
    by_cases hc : best.2 < q.2
    · rw [if_pos hc]
      rcases List.mem_cons.mp (maxGo_mem q r) with h | h
      · rw [h]
        exact List.mem_cons_of_mem _ (List.mem_cons_self _ _)
      · exact List.mem_cons_of_mem _ (List.mem_cons_of_mem _ h)
    · rw [if_neg hc]
      rcases List.mem_cons.mp (maxGo_mem best r) with h | h
      · rw [h]
        exact List.mem_cons_self _ _
      · exact List.mem_cons_of_mem _ (List.mem_cons_of_mem _ h)

theorem maxGo_max : ∀ (best : Nat × ℚ) (l : List (Nat × ℚ)) (q : Nat × ℚ),
    q ∈ best :: l → q.2 ≤ (maxGo best l).2
  | best, [], q, hq => by
    rcases List.mem_cons.mp hq with h | h
    · subst h
      exact le_refl _
    · simp at h
  | best, p :: r, q, hq => by
    simp only [maxGo]
    by_cases hc : best.2 < p.2
    · rw [if_pos hc]
      rcases List.mem_cons.mp hq with h | h
      · subst h
        exact le_trans (le_of_lt hc) (maxGo_max p r p (List.mem_cons_self _ _))
      · rcases List.mem_cons.mp h with h2 | h2
        · rw [h2]
          exact maxGo_max p r p (List.mem_cons_self _ _)
        · exact maxGo_max p r q (List.mem_cons_of_mem _ h2)
    · rw [if_neg hc]
      rcases List.mem_cons.mp hq with h | h
      · rw [h]
        exact maxGo_max best r best (List.mem_cons_self _ _)
      · rcases List.mem_cons.mp h with h2 | h2
        · rw [h2]
          exact le_trans (le_of_not_lt hc) (maxGo_max best r best (List.mem_cons_self _ _))
        · exact maxGo_max best r q (List.mem_cons_of_mem _ h2)

theorem key_mem_of_dLookup {κ α : Type} [DecidableEq κ]
    (l : List (κ × α)) (k : κ) (v : α) (h : dLookup l k = some v) : k ∈ l.map Prod.fst :=
  List.mem_map.mpr ⟨(k, v), mem_of_dLookup l k v h, rfl⟩

theorem dLookup_none_of_not_mem {κ α : Type} [DecidableEq κ]
    (l : List (κ × α)) (k : κ) (h : k ∉ l.map Prod.fst) : dLookup l k = none := by
  rcases hl : dLookup l k with _ | v
  · rfl
  · exact absurd (key_mem_of_dLookup l k v hl) h

theorem dLookup_some_of_mem_keys {κ α : Type} [DecidableEq κ]
    (l : List (κ × α)) (k : κ) (h : k ∈ l.map Prod.fst) : ∃ v, dLookup l k = some v := by
  rcases hl : dLookup l k with _ | v
  · rw [← dLookup_isSome_iff] at h
    rw [hl] at h
    simp at h
  · exact ⟨v, rfl⟩

theorem chainInv_init (H : Block → Nat) (g : Block) (gT : Nat) (mM : Int)
    (h1 : H g < gT) (h2 : H g ≠ 0) (h3 : g.priorHash = 0) :
    ChainInv H g gT (Blockchain.init H g gT mM) := by
  refine
    { gt_pos := by omega
      hg_ne := h2
      genesisT := rfl
      gen_first := rfl
      keys_nodup := by simp [Blockchain.init]
      keys_hash := ?_
      work_keys := rfl
      shape := ?_
      work_gen := by simp [Blockchain.init, dLookup]
      work_acc := ?_ }
  · intro kb hkb
    simp [Blockchain.init] at hkb
    rw [hkb]
    exact ⟨rfl, h2⟩
  · intro i kb hkb
    match i with
    | 0 =>
      simp [Blockchain.init] at hkb
      left
      rw [← hkb]
      exact ⟨h3, rfl⟩
    | i + 1 => simp [Blockchain.init] at hkb
  · intro k c hkc hcne
    simp only [Blockchain.init] at hkc
    by_cases hk : H g = k
    · simp only [dLookup, if_pos hk] at hkc
      injection hkc with hc
      rw [← hc] at hcne
      exact absurd h3 hcne
    · simp only [dLookup, if_neg hk] at hkc
      exact absurd hkc (by simp)

theorem chainInv_extendWith (Htx : Transaction → Nat) (H : Block → Nat)
    (g : Block) (gT : Nat) (s : Blockchain) (b prior : Block) (unspent : Utxo)
    (r : Except Unit Bool) (s' : Blockchain)
    (hInv : ChainInv H g gT s)
    (hp : dLookup s.blocks b.priorHash = some prior)
    (hbne : H b ≠ 0)
    (hcol : ∀ b', dLookup s.blocks (H b) = some b' → b' = b)
    (hx : Blockchain.extendWith Htx H s b unspent = (r, s')) :
    ChainInv H g gT s' := by
  rcases hv : Block.validate Htx H b unspent s.maxMint with e | onu
  · simp only [Blockchain.extendWith, hv] at hx
    have hs : s' = s := (congrArg Prod.snd hx).symm
    subst hs
    exact hInv
  · rcases onu with _ | nu
    · simp only [Blockchain.extendWith, hv] at hx
      have hs : s' = s := (congrArg Prod.snd hx).symm
      subst hs
      exact hInv
    · rcases hw : dLookup s.work b.priorHash with _ | wp
      · have hmem := key_mem_of_dLookup _ _ _ hp
        rw [← hInv.work_keys] at hmem
        obtain ⟨w0, hw0⟩ := dLookup_some_of_mem_keys _ _ hmem
        rw [hw] at hw0
        simp at hw0
      · simp only [Blockchain.extendWith, hv, hw] at hx
        have hs : s' = { s with
            blocks := dInsert s.blocks (H b) b
            work := dInsert s.work (H b) (wp + s.getWork b.target)
            utxo := dInsert s.utxo (H b) nu } := (congrArg Prod.snd hx).symm
        subst hs
        have hprmem := mem_of_dLookup _ _ _ hp
        have hprne : b.priorHash ≠ 0 := (hInv.keys_hash _ hprmem).2
        have hgw : s.getWork b.target = (gT : ℚ) / (b.target : ℚ) := by
          unfold Blockchain.getWork
          rw [hInv.genesisT]
        rcases hcb : dLookup s.blocks (H b) with _ | b0
        · -- fresh key: both inserts append
          have hfresh : H b ∉ s.blocks.map Prod.fst := by
            intro hm
            obtain ⟨v, hv2⟩ := dLookup_some_of_mem_keys _ _ hm
            rw [hcb] at hv2
            simp at hv2
          have hfreshW : H b ∉ s.work.map Prod.fst := by
            rw [hInv.work_keys]
            exact hfresh
          have hbl : dInsert s.blocks (H b) b = s.blocks ++ [(H b, b)] :=
            dInsert_append_of_not_mem _ _ _ hfresh
          have hwk : dInsert s.work (H b) (wp + s.getWork b.target)
              = s.work ++ [(H b, wp + s.getWork b.target)] :=
            dInsert_append_of_not_mem _ _ _ hfreshW
          rw [hbl, hwk]
          refine
            { gt_pos := hInv.gt_pos
              hg_ne := hInv.hg_ne
              genesisT := hInv.genesisT
              gen_first := ?_
              keys_nodup := ?_
              keys_hash := ?_
              work_keys := ?_
              shape := ?_
              work_gen := dLookup_append_left _ _ _ _ hInv.work_gen
              work_acc := ?_ }
          · rcases hbk : s.blocks with _ | ⟨hd, tl⟩
            · have hgf := hInv.gen_first
              rw [hbk] at hgf
              simp at hgf
            · have hgf := hInv.gen_first
              rw [hbk] at hgf
              simp at hgf
              simp [hgf]
          · rw [List.map_append, List.nodup_append]
            refine ⟨hInv.keys_nodup, by simp, ?_⟩
            intro a ha hb2
            simp at hb2
            subst hb2
            exact hfresh ha
          · intro kb hkb
            rcases List.mem_append.mp hkb with h | h
            · exact hInv.keys_hash kb h
            · simp at h
              rw [h]
              exact ⟨rfl, hbne⟩
          · rw [List.map_append, List.map_append, hInv.work_keys]
            rfl
          · intro i kb hkb
            by_cases hi : i < s.blocks.length
            · rw [List.get?_append hi] at hkb
              rcases hInv.shape i kb hkb with h | ⟨j, kb2, hj, hkb2, hkey⟩
              · exact Or.inl h
              · refine Or.inr ⟨j, kb2, hj, ?_, hkey⟩
                have hjl : j < s.blocks.length := by
                  rcases List.get?_eq_some.mp hkb2 with ⟨hh, _⟩
                  exact hh
                rw [List.get?_append hjl]
                exact hkb2
            · by_cases hi2 : i = s.blocks.length
              · subst hi2
                rw [List.get?_concat_length] at hkb
                injection hkb with hkb2
                obtain ⟨j, hj⟩ := List.mem_iff_get?.mp hprmem
                have hjl : j < s.blocks.length := by
                  rcases List.get?_eq_some.mp hj with ⟨hh, _⟩
                  exact hh
                refine Or.inr ⟨j, (b.priorHash, prior), hjl, ?_, ?_⟩
                · rw [List.get?_append hjl]
                  exact hj
                · rw [← hkb2]
              · have : (s.blocks ++ [(H b, b)]).get? i = none := by
                  rw [List.get?_append_right (by omega)]
                  apply List.get?_eq_none.mpr
                  simp
                  omega
                rw [this] at hkb
                exact absurd hkb (by simp)
          · intro k c hkc hcne
            rcases hold : dLookup s.blocks k with _ | c0
            · rw [dLookup_append_single _ _ _ _ hold] at hkc
              by_cases hk2 : H b = k
              · rw [if_pos hk2] at hkc
                injection hkc with hcb2
                subst hk2
                rw [← hcb2] at hcne ⊢
                refine ⟨wp, dLookup_append_left _ _ _ _ hw, ?_⟩
                have hwnone : dLookup s.work (H b) = none :=
                  dLookup_none_of_not_mem _ _ hfreshW
                rw [dLookup_append_single _ _ _ _ hwnone, if_pos rfl, hgw]
              · rw [if_neg hk2] at hkc
                exact absurd hkc (by simp)
            · have hkc0 := dLookup_append_left _ [(H b, b)] _ _ hold
              have hc0 : c0 = c := by
                have := hkc0.symm.trans hkc
                injection this
              subst hc0
              obtain ⟨wp', h1, h2⟩ := hInv.work_acc k c0 hold hcne
              exact ⟨wp', dLookup_append_left _ _ _ _ h1, dLookup_append_left _ _ _ _ h2⟩
        · -- existing key: by the no-collision hypothesis this re-inserts
          -- the same block and work value, leaving both maps unchanged
          have hb0 : b0 = b := hcol b0 hcb
          subst hb0
          have hbl : dInsert s.blocks (H b0) b0 = s.blocks := dInsert_self _ _ _ hcb
          obtain ⟨wp', hw1, hw2⟩ := hInv.work_acc (H b0) b0 hcb hprne
          have hwp : wp = wp' := Option.some.inj (hw.symm.trans hw1)
          have hwk : dInsert s.work (H b0) (wp + s.getWork b0.target) = s.work := by
            rw [hwp, hgw]
            exact dInsert_self _ _ _ hw2
          rw [hbl, hwk]
          exact
            { gt_pos := hInv.gt_pos
              hg_ne := hInv.hg_ne
              genesisT := hInv.genesisT
              gen_first := hInv.gen_first
              keys_nodup := hInv.keys_nodup
              keys_hash := hInv.keys_hash
              work_keys := hInv.work_keys
              shape := hInv.shape
              work_gen := hInv.work_gen
              work_acc := hInv.work_acc }

theorem chainInv_step (Htx : Transaction → Nat) (H : Block → Nat)
    (g : Block) (gT : Nat) (s : Blockchain) (b : Block)
    (r : Except Unit Bool) (s' : Blockchain)
    (hInv : ChainInv H g gT s)
    (hbne : H b ≠ 0)
    (hcol : ∀ b', dLookup s.blocks (H b) = some b' → b' = b)
    (hx : Blockchain.extend Htx H s b = (r, s')) :
    ChainInv H g gT s' := by
  rcases hp : dLookup s.blocks b.priorHash with _ | prior
  · simp only [Blockchain.extend, hp] at hx
    have hs : s' = s := (congrArg Prod.snd hx).symm
    subst hs
    exact hInv
  · rcases hu : dLookup s.utxo (H prior) with _ | unspent
    · rcases hv : Block.validate Htx H prior [] s.maxMint with e | onu
      · simp only [Blockchain.extend, hp, hu, hv] at hx
        have hs : s' = s := (congrArg Prod.snd hx).symm
        subst hs
        exact hInv
      · rcases onu with _ | unspent
        · simp only [Blockchain.extend, hp, hu, hv] at hx
          have hs : s' = s := (congrArg Prod.snd hx).symm
          subst hs
          exact hInv
        · simp only [Blockchain.extend, hp, hu, hv] at hx
          have hU : ChainInv H g gT { s with utxo := dInsert s.utxo (H prior) unspent } :=
            { gt_pos := hInv.gt_pos
              hg_ne := hInv.hg_ne
              genesisT := hInv.genesisT
              gen_first := hInv.gen_first
              keys_nodup := hInv.keys_nodup
              keys_hash := hInv.keys_hash
              work_keys := hInv.work_keys
              shape := hInv.shape
              work_gen := hInv.work_gen
              work_acc := hInv.work_acc }
          exact chainInv_extendWith Htx H g gT _ b prior unspent r s' hU hp hbne hcol hx
    · simp only [Blockchain.extend, hp, hu] at hx
      exact chainInv_extendWith Htx H g gT s b prior unspent r s' hInv hp hbne hcol hx

theorem chainInv_of_reachable (Htx : Transaction → Nat) (H : Block → Nat)
    (g : Block) (gT : Nat) (mM : Int) (s : Blockchain)
    (hr : Reachable Htx H g gT mM s) : ChainInv H g gT s := by
  induction hr with
  | base h1 h2 h3 => exact chainInv_init H g gT mM h1 h2 h3
  | step hr2 hbne hcol hx ih => exact chainInv_step Htx H g gT _ _ _ _ ih hbne hcol hx

theorem chain1_reachable :
    Reachable (fun _ => 0) nonceHash gBlock 10 100 chain1 :=
  @Reachable.step (fun _ => 0) nonceHash gBlock 10 100 chain0 b1Block
    (Blockchain.extend (fun _ => 0) nonceHash chain0 b1Block).1
    chain1
    (Reachable.base (by decide) (by decide) rfl) (by decide)
    (fun b' h => by
      rw [show dLookup chain0.blocks (nonceHash b1Block) = none from rfl] at h
      exact Option.noConfusion h)
    rfl

/-- Claim C7: on every reachable chain, `getTip` returns an accepted
block whose recorded cumulative work is maximal over the work map; the
genesis block's recorded work is 1 (= genesisTarget / genesisTarget);
and every non-genesis accepted block's recorded work equals its
parent's recorded work plus `work(target) = genesisTarget / target`.
Ties are resolved arbitrarily (the theorem only asserts maximality). -/
theorem getTip_max_work (Htx : Transaction → Nat) (H : Block → Nat)
    (g : Block) (gT : Nat) (mM : Int) (s : Blockchain)
    (hr : Reachable Htx H g gT mM s) :
    (∃ k bTip w, s.getTip = some bTip ∧ dLookup s.blocks k = some bTip
      ∧ dLookup s.work k = some w
      ∧ ∀ k2 w2, dLookup s.work k2 = some w2 → w2 ≤ w)
    ∧ dLookup s.work (H g) = some 1
    ∧ (∀ k c, dLookup s.blocks k = some c → c.priorHash ≠ 0 →
        ∃ wp, dLookup s.work c.priorHash = some wp
          ∧ dLookup s.work k = some (wp + (gT : ℚ) / (c.target : ℚ))) := by
  have hInv := chainInv_of_reachable Htx H g gT mM s hr
  have hne0 : (gT : ℚ) ≠ 0 := by
    have := hInv.gt_pos
    exact_mod_cast Nat.pos_iff_ne_zero.mp this
  have hone : (gT : ℚ) / (gT : ℚ) = 1 := div_self hne0
  refine ⟨?_, by rw [← hone]; exact hInv.work_gen, hInv.work_acc⟩
  rcases hwl : s.work with _ | ⟨p, restW⟩
  · have hk := hInv.work_keys
    rw [hwl] at hk
    rcases hbk : s.blocks with _ | ⟨hd, tl⟩
    · have hgf := hInv.gen_first
      rw [hbk] at hgf
      simp at hgf
    · rw [hbk] at hk
      simp at hk
  · rw [← hwl]
    set q := maxGo p restW with hq
    have hqmem : q ∈ s.work := by
      rw [hwl]
      exact maxGo_mem p restW
    have hnodW : (s.work.map Prod.fst).Nodup := by
      rw [hInv.work_keys]
      exact hInv.keys_nodup
    have hlq : dLookup s.work q.1 = some q.2 :=
      dLookup_of_mem _ _ _ hqmem hnodW
    have hkeymem : q.1 ∈ s.blocks.map Prod.fst := by
      rw [← hInv.work_keys]
      exact List.mem_map.mpr ⟨q, hqmem, rfl⟩
    obtain ⟨bTip, hbTip⟩ := dLookup_some_of_mem_keys _ _ hkeymem
    refine ⟨q.1, bTip, q.2, ?_, hbTip, hlq, ?_⟩
    · unfold Blockchain.getTip
      rw [hwl]
      simp only [maxByKey]
      rw [← hq]
      exact hbTip
    · intro k2 w2 hk2
      have hmem2 := mem_of_dLookup _ _ _ hk2
      rw [hwl] at hmem2
      exact maxGo_max p restW (k2, w2) hmem2

/-- Witness for C7 at the concrete two-block chain `chain1`. -/
theorem getTip_max_work_witness :
    (∃ k bTip w, chain1.getTip = some bTip ∧ dLookup chain1.blocks k = some bTip
      ∧ dLookup chain1.work k = some w
      ∧ ∀ k2 w2, dLookup chain1.work k2 = some w2 → w2 ≤ w)
    ∧ dLookup chain1.work (nonceHash gBlock) = some 1
    ∧ (∀ k c, dLookup chain1.blocks k = some c → c.priorHash ≠ 0 →
        ∃ wp, dLookup chain1.work c.priorHash = some wp
          ∧ dLookup chain1.work k = some (wp + (10 : ℚ) / (c.target : ℚ))) :=
  getTip_max_work (fun _ => 0) nonceHash gBlock 10 100 chain1 chain1_reachable

/-- Claim C3 (amended): when `extend` returns false on a reachable
chain, the blocks map and the cumulative-work map are unchanged, and
the UTXO-snapshot map is unchanged at every key other than the failed
block's parent hash (at the parent's hash it may gain the parent's
recomputed snapshot, cached on line 376 before the new block is
validated). -/
theorem extend_fail_frame (Htx : Transaction → Nat) (H : Block → Nat)
    (g : Block) (gT : Nat) (mM : Int) (s s' : Blockchain) (b : Block)
    (hr : Reachable Htx H g gT mM s)
    (hf : Blockchain.extend Htx H s b = (.ok false, s')) :
    s'.blocks = s.blocks ∧ s'.work = s.work ∧
      ∀ k, k ≠ b.priorHash → dLookup s'.utxo k = dLookup s.utxo k := by
  have hInv := chainInv_of_reachable Htx H g gT mM s hr
  rcases hp : dLookup s.blocks b.priorHash with _ | prior
  · simp only [Blockchain.extend, hp] at hf
    have hs : s' = s := (congrArg Prod.snd hf).symm
    subst hs
    exact ⟨rfl, rfl, fun k _ => rfl⟩
  · have hpr : b.priorHash = H prior := (hInv.keys_hash _ (mem_of_dLookup _ _ _ hp)).1
    rcases hu : dLookup s.utxo (H prior) with _ | unspent
    · rcases hv : Block.validate Htx H prior [] s.maxMint with e | onu
      · simp only [Blockchain.extend, hp, hu, hv] at hf
        exact absurd (congrArg Prod.fst hf) (by simp)
      · rcases onu with _ | unspent
        · simp only [Blockchain.extend, hp, hu, hv] at hf
          have hs : s' = s := (congrArg Prod.snd hf).symm
          subst hs
          exact ⟨rfl, rfl, fun k _ => rfl⟩
        · simp only [Blockchain.extend, hp, hu, hv] at hf
          rcases hv2 : Block.validate Htx H b unspent s.maxMint with e2 | onu2
          · simp only [Blockchain.extendWith, hv2] at hf
            exact absurd (congrArg Prod.fst hf) (by simp)
          · rcases onu2 with _ | nu
            · simp only [Blockchain.extendWith, hv2] at hf
              have hs : s' = { s with utxo := dInsert s.utxo (H prior) unspent } :=
                (congrArg Prod.snd hf).symm
              subst hs
              refine ⟨rfl, rfl, fun k hk => ?_⟩
              show dLookup (dInsert s.utxo (H prior) unspent) k = dLookup s.utxo k
              rw [dLookup_dInsert, if_neg]
              intro e
              apply hk
              rw [hpr, e]
            · simp only [Blockchain.extendWith, hv2] at hf
              rcases hw : dLookup s.work b.priorHash with _ | wp
              · simp only [hw] at hf
                exact absurd (congrArg Prod.fst hf) (by simp)
              · simp only [hw] at hf
                exact absurd (congrArg Prod.fst hf) (by simp)
    · simp only [Blockchain.extend, hp, hu] at hf
      rcases hv2 : Block.validate Htx H b unspent s.maxMint with e2 | onu2
      · simp only [Blockchain.extendWith, hv2] at hf
        exact absurd (congrArg Prod.fst hf) (by simp)
      · rcases onu2 with _ | nu
        · simp only [Blockchain.extendWith, hv2] at hf
          have hs : s' = s := (congrArg Prod.snd hf).symm
          subst hs
          exact ⟨rfl, rfl, fun k _ => rfl⟩
        · simp only [Blockchain.extendWith, hv2] at hf
          rcases hw : dLookup s.work b.priorHash with _ | wp
          · simp only [hw] at hf
            exact absurd (congrArg Prod.fst hf) (by simp)
          · simp only [hw] at hf
            exact absurd (congrArg Prod.fst hf) (by simp)

/-- Claim C3 (counterexample): extending `chain0` with `badBlock`
returns false (proof-of-work failure) yet mutates the UTXO-snapshot
map: the genesis snapshot, absent before the call, is cached during it
(lines 370-376 run before the failed validation). -/
theorem extend_fail_mutates_utxo :
    (Blockchain.extend (fun _ => 0) nonceHash chain0 badBlock).1 = .ok false
    ∧ dLookup (Blockchain.extend (fun _ => 0) nonceHash chain0 badBlock).2.utxo 1 = some []
    ∧ dLookup chain0.utxo 1 = none
    ∧ (Blockchain.extend (fun _ => 0) nonceHash chain0 badBlock).2.utxo ≠ chain0.utxo := by
  refine ⟨rfl, rfl, rfl, ?_⟩
  intro h
  have h2 : dLookup (Blockchain.extend (fun _ => 0) nonceHash chain0 badBlock).2.utxo 1
      = dLookup chain0.utxo 1 := by rw [h]
  rw [show dLookup (Blockchain.extend (fun _ => 0) nonceHash chain0 badBlock).2.utxo 1
      = some [] from rfl] at h2
  rw [show dLookup chain0.utxo 1 = (none : Option Utxo) from rfl] at h2
  exact Option.noConfusion h2

/-- Witness for the amended C3 at the concrete failing extension. -/
theorem extend_fail_frame_witness :
    (Blockchain.extend (fun _ => 0) nonceHash chain0 badBlock).2.blocks = chain0.blocks
    ∧ (Blockchain.extend (fun _ => 0) nonceHash chain0 badBlock).2.work = chain0.work
    ∧ ∀ k, k ≠ badBlock.priorHash →
        dLookup (Blockchain.extend (fun _ => 0) nonceHash chain0 badBlock).2.utxo k
          = dLookup chain0.utxo k :=
  extend_fail_frame (fun _ => 0) nonceHash gBlock 10 100 chain0
    (Blockchain.extend (fun _ => 0) nonceHash chain0 badBlock).2 badBlock
    (Reachable.base (by decide) (by decide) rfl) rfl

theorem heightWalk_fuel (blocks : List (Nat × Block)) :
    ∀ (fuel fuel2 acc n : Nat) (cur : Block), heightWalk blocks cur acc fuel = some n →
      fuel ≤ fuel2 → heightWalk blocks cur acc fuel2 = some n := by
  intro fuel
  induction fuel with
  | zero =>
    intro fuel2 acc n cur h
    simp [heightWalk] at h
  | succ f ih =>
    intro fuel2 acc n cur h hle
    rcases fuel2 with _ | f2
    · omega
    · rcases hl : dLookup blocks cur.priorHash with _ | p
      · simp only [heightWalk, hl] at h ⊢
        exact h
      · simp only [heightWalk, hl] at h ⊢
        exact ih f2 (acc + 1) n p h (by omega)

theorem isHeight_unique {blocks : List (Nat × Block)} {b : Block} {n m : Nat}
    (h1 : IsHeight blocks b n) : IsHeight blocks b m → n = m := by
  induction h1 generalizing m with
  | root b hb =>
    intro h2
    cases h2 with
    | root _ => rfl
    | step _ p _ hp _ =>
      rw [hb] at hp
      exact absurd hp (by simp)
  | step b p n hp hpp ih =>
    intro h2
    cases h2 with
    | root =>
      rename_i hb
      rw [hb] at hp
      exact absurd hp (by simp)
    | step _ p2 m2 hp2 h3 =>
      have hpe : p2 = p := by
        rw [hp] at hp2
        exact (Option.some.inj hp2).symm
      subst hpe
      rw [ih h3]

theorem heightWalk_terminates (blocks : List (Nat × Block))
    (hnodup : (blocks.map Prod.fst).Nodup)
    (hshape : ∀ i kb, blocks.get? i = some kb →
      (kb.2.priorHash = 0 ∧ i = 0) ∨
      ∃ j kb2, j < i ∧ blocks.get? j = some kb2 ∧ kb2.1 = kb.2.priorHash)
    (hzero : ∀ kb ∈ blocks, kb.1 ≠ 0) :
    ∀ j kb, blocks.get? j = some kb → ∀ acc,
      ∃ n, heightWalk blocks kb.2 acc (j + 1) = some (acc + n)
        ∧ IsHeight blocks kb.2 n := by
  intro j
  induction j using Nat.strong_induction_on with
  | _ j ih =>
    intro kb hkb acc
    rcases hshape j kb hkb with ⟨h0, hj0⟩ | ⟨j2, kb2, hj2, hkb2, hkey⟩
    · have hl : dLookup blocks kb.2.priorHash = none := by
        rw [h0]
        exact dLookup_none_of_ne_keys blocks 0 hzero
      refine ⟨0, ?_, IsHeight.root _ hl⟩
      simp only [heightWalk, hl]
      simp
    · have hmem : kb2 ∈ blocks := List.get?_mem hkb2
      have hp : dLookup blocks kb.2.priorHash = some kb2.2 := by
        rw [← hkey]
        exact dLookup_of_mem _ _ _ hmem hnodup
      obtain ⟨n2, hw2, hh2⟩ := ih j2 hj2 kb2 hkb2 (acc + 1)
      refine ⟨n2 + 1, ?_, IsHeight.step _ _ _ hp hh2⟩
      have hw3 : heightWalk blocks kb2.2 (acc + 1) j = some (acc + 1 + n2) :=
        heightWalk_fuel blocks (j2 + 1) j (acc + 1) _ kb2.2 hw2 (by omega)
      simp only [heightWalk, hp]
      rw [hw3]
      congr 1
      omega

theorem collectAtHeight_spec (blocks : List (Nat × Block)) (fuel h : Nat) :
    ∀ (sub : List (Nat × Block)),
      (∀ kb ∈ sub, ∃ n, heightWalk blocks kb.2 0 fuel = some n) →
      ∃ l, collectAtHeight blocks fuel h sub = some l ∧
        ∀ x, x ∈ l ↔ ∃ k, (k, x) ∈ sub ∧ heightWalk blocks x 0 fuel = some h
  | [], _ => ⟨[], rfl, by simp⟩
  | (k0, b0) :: rest, hall => by
    obtain ⟨n0, hn0⟩ := hall (k0, b0) (List.mem_cons_self _ _)
    obtain ⟨l, hl, hiff⟩ := collectAtHeight_spec blocks fuel h rest
      (fun kb hkb => hall kb (List.mem_cons_of_mem _ hkb))
    refine ⟨if n0 = h then b0 :: l else l, ?_, ?_⟩
    · simp only [collectAtHeight, hn0, hl]
    · intro x
      by_cases hnh : n0 = h
      · subst hnh
        rw [if_pos rfl]
        constructor
        · intro hx
          rcases List.mem_cons.mp hx with hx | hx
          · subst hx
            exact ⟨k0, List.mem_cons_self _ _, hn0⟩
          · obtain ⟨k, hk, hw⟩ := (hiff x).mp hx
            exact ⟨k, List.mem_cons_of_mem _ hk, hw⟩
        · rintro ⟨k, hk, hw⟩
          rcases List.mem_cons.mp hk with hk | hk
          · injection hk with hk1 hk2
            rw [hk2]
            exact List.mem_cons_self _ _
          · exact List.mem_cons_of_mem _ ((hiff x).mpr ⟨k, hk, hw⟩)
      · rw [if_neg hnh]
        constructor
        · intro hx
          obtain ⟨k, hk, hw⟩ := (hiff x).mp hx
          exact ⟨k, List.mem_cons_of_mem _ hk, hw⟩
        · rintro ⟨k, hk, hw⟩
          rcases List.mem_cons.mp hk with hk | hk
          · injection hk with hk1 hk2
            rw [← hk2] at hn0
            have hcontra := hn0.symm.trans hw
            injection hcontra with hnn
            exact absurd hnn hnh
          · exact (hiff x).mpr ⟨k, hk, hw⟩

/-- Claim C9: on every reachable chain, `getBlocksAtHeight h` completes
(the parent walks terminate) and returns exactly the accepted blocks —
across all forks — whose height is `h`, where height is the number of
parent-hops back to a block whose parent hash is not a key of the
index (`IsHeight`). -/
theorem getBlocksAtHeight_spec (Htx : Transaction → Nat) (H : Block → Nat)
    (g : Block) (gT : Nat) (mM : Int) (s : Blockchain)
    (hr : Reachable Htx H g gT mM s) (h : Nat) :
    ∃ l, s.getBlocksAtHeight h = some l ∧
      ∀ bb, bb ∈ l ↔ ∃ k, (k, bb) ∈ s.blocks ∧ IsHeight s.blocks bb h := by
  have hInv := chainInv_of_reachable Htx H g gT mM s hr
  have hzero : ∀ kb ∈ s.blocks, kb.1 ≠ 0 := fun kb hkb => (hInv.keys_hash kb hkb).2
  have hterm := heightWalk_terminates s.blocks hInv.keys_nodup hInv.shape hzero
  have hall : ∀ kb ∈ s.blocks,
      ∃ n, heightWalk s.blocks kb.2 0 (s.blocks.length + 1) = some n
        ∧ IsHeight s.blocks kb.2 n := by
    intro kb hkb
    obtain ⟨j, hj⟩ := List.mem_iff_get?.mp hkb
    have hjl : j < s.blocks.length := by
      rcases List.get?_eq_some.mp hj with ⟨hh, _⟩
      exact hh
    obtain ⟨n, hw, hh⟩ := hterm j kb hj 0
    refine ⟨n, ?_, hh⟩
    have hlift := heightWalk_fuel s.blocks (j + 1) (s.blocks.length + 1) 0 (0 + n) kb.2 hw
      (by omega)
    simpa using hlift
  obtain ⟨l, hl, hiff⟩ := collectAtHeight_spec s.blocks (s.blocks.length + 1) h s.blocks
    (fun kb hkb => Exists.imp (fun n hn => hn.1) (hall kb hkb))
  refine ⟨l, hl, fun bb => ?_⟩
  rw [hiff bb]
  constructor
  · rintro ⟨k, hk, hw⟩
    refine ⟨k, hk, ?_⟩
    obtain ⟨n, hwn, hhn⟩ := hall (k, bb) hk
    have hnh : n = h := by
      have := hwn.symm.trans hw
      injection this
    rw [← hnh]
    exact hhn
  · rintro ⟨k, hk, hh⟩
    refine ⟨k, hk, ?_⟩
    obtain ⟨n, hwn, hhn⟩ := hall (k, bb) hk
    have hnh : n = h := isHeight_unique hhn hh
    rw [← hnh]
    exact hwn

/-- Witness for C9: the two-block chain `chain1` at height 1. -/
theorem getBlocksAtHeight_spec_witness :
    ∃ l, chain1.getBlocksAtHeight 1 = some l ∧
      ∀ bb, bb ∈ l ↔ ∃ k, (k, bb) ∈ chain1.blocks ∧ IsHeight chain1.blocks bb 1 :=
  getBlocksAtHeight_spec (fun _ => 0) nonceHash gBlock 10 100 chain1 chain1_reachable 1
